import Mathlib

set_option maxRecDepth 8000

/-!
Verification of the akaza kana-to-kanji conversion core against its
natural-language specification.

The development shallowly embeds the Rust sources:
  * `src/akaza-core/libakaza/src/graph/graph_resolver.rs` (`GraphResolver::viterbi`)
  * `src/libakaza/src/kana_trie/crawdad_kana_trie.rs` (`common_prefix_search`)
  * `src/libakaza/src/kana_kanji/marisa_kana_kanji_dict.rs` (`build`, `get`)
  * `src/akaza-core/bin/akaza-make-system-lm/src/main.rs` (`process_unigram`)

Floating-point costs (`f32`) are modelled as integers (every claim settled
here concerns the order/addition structure of costs, never fractional values;
`f32::MIN` is the exact integer value of that constant). Rust outcomes are modelled by `RunResult`:
`ok` is a normal return, `err` is an `anyhow::Result::Err` returned to the
caller, `panic` is a process abort via `panic!`/`unwrap`, and `diverge` marks
an infinite loop (the backtracking loop of `viterbi` can only terminate or
loop; we run it with enough fuel that running out is provably a real cycle).
-/

namespace Akaza

/-- Outcome of running a piece of Rust code: normal return, `anyhow` error
returned to the caller, process abort, or non-termination. -/
inductive RunResult (α : Type) where
  | ok : α → RunResult α
  | err : String → RunResult α
  | panic : String → RunResult α
  | diverge : RunResult α
deriving DecidableEq, Repr

/-- `true` iff the outcome is an `anyhow` error returned to the caller. -/
def RunResult.isError : RunResult α → Bool
  | .err _ => true
  | _ => false

/-- Costs are conceptually `f32`; we embed them as integers. -/
abbrev Cost := Int

/-- The exact integer value of `f32::MIN`, the initial accumulator of the
inner loop of `GraphResolver::viterbi`. -/
def f32Min : Cost := -(2 ^ 128 - 2 ^ 104)

/-- A lattice node (`WordNode` of `word_node.rs`, not under `src/`; fields are
the ones the spec's data model lists and the resolver reads: the 1-shifted
start position, the surface `kanji`, and the covered reading). -/
structure WordNode where
  start_pos : Int
  kanji : String
  yomi : String
deriving DecidableEq, Repr

/-- Modelled from the spec: the lattice graph (`lattice_graph.rs` is not under
`src/`). The spec's data model: a mapping from end position `e ∈ [1, L+1]` to
the ordered list of nodes ending at `e` (plus BOS at position 0), together
with per-node and per-edge costs.  `node_list`, `get` and `get_prev_nodes`
look positions up in the mapping; the predecessor list of a node is the list
at its `start_pos`. -/
structure LatticeGraph where
  yomi : String
  graph : List (Int × List WordNode)
  nodeCost : WordNode → Cost
  edgeCost : WordNode → WordNode → Cost

/-- First-match association lookup (Rust `HashMap::get`, with insertion
modelled by consing, so the most recent insertion for a key wins). -/
def alookup {α : Type} (m : List (WordNode × α)) (n : WordNode) : Option α :=
  match m with
  | [] => none
  | (k, v) :: rest => if k = n then some v else alookup rest n

/-- `LatticeGraph::node_list` / `LatticeGraph::get`: the node list stored at
position `i`, if any. -/
def nodeList (g : LatticeGraph) (i : Int) : Option (List WordNode) :=
  (g.graph.find? (fun e => decide (e.1 = i))).map Prod.snd

/-- `node_list` with a `[]` default. -/
def nodeListD (g : LatticeGraph) (i : Int) : List WordNode :=
  (nodeList g i).getD []

/-- `LatticeGraph::get_prev_nodes`: the nodes ending at `n.start_pos`. -/
def getPrevNodes (g : LatticeGraph) (n : WordNode) : Option (List WordNode) :=
  nodeList g n.start_pos

/-- The score a predecessor `p` offers node `n`:
`prev_cost + edge_cost + node_cost` where a node absent from the cost map
(only BOS, which is never scored) contributes `0`
(`costmap.get(prev).unwrap_or(&0_f32)`). -/
def candScore (g : LatticeGraph) (cm : List (WordNode × Cost)) (n p : WordNode) : Cost :=
  (alookup cm p).getD 0 + g.edgeCost p n + g.nodeCost n

/-- One step of the inner predecessor loop of `viterbi`:
`if cost < tmp_cost { cost = tmp_cost; shortest_prev = Some(prev); }`. -/
def stepBP (g : LatticeGraph) (cm : List (WordNode × Cost)) (n : WordNode)
    (acc : Cost × Option WordNode) (p : WordNode) : Cost × Option WordNode :=
  let tmp := candScore g cm n p
  if acc.1 < tmp then (tmp, some p) else acc

/-- The inner predecessor loop of `viterbi`, started from
`(f32::MIN, None)`. -/
def chooseBest (g : LatticeGraph) (cm : List (WordNode × Cost)) (n : WordNode)
    (prevs : List WordNode) : Cost × Option WordNode :=
  prevs.foldl (stepBP g cm n) (f32Min, none)

/-- The score/argmax maps of `viterbi`: `prevmap` and `costmap`. -/
abbrev Maps := List (WordNode × WordNode) × List (WordNode × Cost)

/-- Scoring of one node of the lattice by `viterbi`: fetch the predecessor
list (panicking like the source when it is absent), run the inner loop, and
insert into `prevmap` (panicking when `shortest_prev` is `None`) and
`costmap`. -/
def scoreNode (g : LatticeGraph) (maps : Maps) (n : WordNode) : RunResult Maps :=
  match getPrevNodes g n with
  | none => .panic "Cannot get prev nodes"
  | some prevs =>
      match chooseBest g maps.2 n prevs with
      | (cost, some sp) => .ok ((n, sp) :: maps.1, (n, cost) :: maps.2)
      | (_, none) => .panic "Option.unwrap on None"

/-- Scoring of the nodes of one position, in list order. -/
def scoreNodes (g : LatticeGraph) (maps : Maps) : List WordNode → RunResult Maps
  | [] => .ok maps
  | n :: rest =>
      match scoreNode g maps n with
      | .ok maps' => scoreNodes g maps' rest
      | .err m => .err m
      | .panic m => .panic m
      | .diverge => .diverge

/-- The outer loop of `viterbi`: `for i in 1..yomi.len() + 2`, skipping
positions with no node list (`continue`). -/
def scorePositions (g : LatticeGraph) (maps : Maps) : List Int → RunResult Maps
  | [] => .ok maps
  | i :: is =>
      match nodeList g i with
      | none => scorePositions g maps is
      | some nodes =>
          match scoreNodes g maps nodes with
          | .ok maps' => scorePositions g maps' is
          | .err m => .err m
          | .panic m => .panic m
          | .diverge => .diverge

/-- The positions the outer loop visits: `1, …, yomi.len() + 1` (byte
length), in ascending order. -/
def positionsOf (g : LatticeGraph) : List Int :=
  (List.range (g.yomi.utf8ByteSize + 1)).map (fun (k : Nat) => (k : Int) + 1)

/-- The whole scoring phase of `viterbi`. -/
def viterbiScore (g : LatticeGraph) : RunResult Maps :=
  scorePositions g ([], []) (positionsOf g)

/-- The backtracking loop of `viterbi`:
`while node != bos { if node.kanji != "__EOS__" { result.push(..) }; node = prevmap[node] }`,
with fuel (the Rust loop either terminates or spins forever; `diverge` is
returned exactly when the chain cannot reach `bos`, i.e. the source loops). -/
def backtrackGo (pm : List (WordNode × WordNode)) (bos : WordNode) :
    Nat → WordNode → List String → RunResult (List String)
  | 0, _, _ => .diverge
  | fuel + 1, node, acc =>
      if node = bos then .ok acc
      else
        let acc' := if node.kanji = "__EOS__" then acc else acc ++ [node.kanji]
        match alookup pm node with
        | some m => backtrackGo pm bos fuel m acc'
        | none => .panic "Cannot get previous node"

/-- `GraphResolver::viterbi`: score every node in ascending position order,
fetch EOS (first node at `L+1`) and BOS (first node at `0`), backtrack via
`prevmap`, reverse the collected surfaces and concatenate them. Every
`unwrap` of the source is a `panic` outcome. -/
def viterbi (g : LatticeGraph) : RunResult String :=
  match viterbiScore g with
  | .ok (pm, _cm) =>
      match nodeList g ((g.yomi.utf8ByteSize : Int) + 1) with
      | none => .panic "Option.unwrap on None"
      | some eosList =>
          match eosList.head? with
          | none => .panic "Option.unwrap on None"
          | some eos =>
              match nodeList g 0 with
              | none => .panic "Option.unwrap on None"
              | some bosList =>
                  match bosList.head? with
                  | none => .panic "Option.unwrap on None"
                  | some bos =>
                      match backtrackGo pm bos (pm.length + 2) eos [] with
                      | .ok strs => .ok (String.join strs.reverse)
                      | .err m => .err m
                      | .panic m => .panic m
                      | .diverge => .diverge
  | .err m => .err m
  | .panic m => .panic m
  | .diverge => .diverge

/-- The nodes a run of the backtracking loop visits before reaching `bos`:
`Backtracks pm bos n ms` holds when following `pm` from `n` reaches `bos`
after visiting exactly the nodes of `ms` (in visit order, `bos` excluded). -/
inductive Backtracks (pm : List (WordNode × WordNode)) (bos : WordNode) :
    WordNode → List WordNode → Prop where
  | done : Backtracks pm bos bos []
  | step {n m : WordNode} {ms : List WordNode} :
      n ≠ bos → alookup pm n = some m → Backtracks pm bos m ms →
      Backtracks pm bos n (n :: ms)

/-- Every node of the list has all its predecessors strictly before it: no
predecessor occurs at the node's own place or later. Ascending end-position
processing guarantees this for the flattened node list of a well-formed
lattice. -/
def PredsEarlier (g : LatticeGraph) : List WordNode → Prop
  | [] => True
  | n :: rest =>
      (∀ prevs, getPrevNodes g n = some prevs → ∀ p ∈ prevs, p ∉ n :: rest) ∧
      PredsEarlier g rest

/-! ### The crawdad kana trie (`crawdad_kana_trie.rs`) -/

/-- Modelled from the spec (§4.1, the crawdad crate is external): crawdad's
`common_prefix_search` walks the query character by character and yields, in
ascending order, the character length of every stored key that is a prefix of
the query (keys are non-empty UTF-8 strings; each matched length occurs
once). -/
def crawdadMatches (keys : List (List Char)) (query : List Char) : List Nat :=
  ((List.range query.length).map (fun n => n + 1)).filter
    (fun n => decide (query.take n ∈ keys))

/-- The body of the `for` loop of `CrawdadKanaTrie::common_prefix_search`:
`query.char_indices().nth(s).unwrap()` — `none` (= panic) when `s` equals the
query's character count — then pushing `query[0..k]`, the first `s`
characters of the query. -/
def collectMatches (query : List Char) : List Nat → Option (List (List Char))
  | [] => some []
  | s :: ss =>
      if s < query.length then
        (collectMatches query ss).map (fun rest => query.take s :: rest)
      else none

/-- `CrawdadKanaTrie::common_prefix_search`; `none` models the source
panicking on the `unwrap`. -/
def commonPrefixSearch (keys : List (List Char)) (query : List Char) :
    Option (List (List Char)) :=
  collectMatches query (crawdadMatches keys query)

/-! ### The marisa kana-kanji dictionary (`marisa_kana_kanji_dict.rs`) -/

def TAB : Char := '\t'

def SLASH : Char := '/'

/-- `surfaces.join("/")`. -/
def joinSurfaces : List (List Char) → List Char
  | [] => []
  | [s] => s
  | s :: ss => s ++ SLASH :: joinSurfaces ss

/-- Rust `str::split('/')` (over the payload, modelled at character level). -/
def splitSlash : List Char → List (List Char)
  | [] => [[]]
  | c :: rest =>
      match splitSlash rest with
      | [] => [[]]
      | s :: ss => if c = SLASH then [] :: s :: ss else (c :: s) :: ss

/-- The trie key `MarisaKanaKanjiDict::build` stores for one entry:
`kana ++ "\t" ++ surfaces.join("/")`. -/
def dictKey (e : List Char × List (List Char)) : List Char :=
  e.1 ++ TAB :: joinSurfaces e.2

/-- `MarisaKanaKanjiDict::build` (the marisa trie itself is external:
modelled from the spec as the stored key set, enumerated in insertion
order). -/
def dictBuild (dicts : List (List Char × List (List Char))) : List (List Char) :=
  dicts.map dictKey

/-- Modelled from the spec (§4.2, marisa is external): `predictive_search`
enumerates the stored keys having `query` as a prefix. -/
def predictiveHits (keys : List (List Char)) (query : List Char) : List (List Char) :=
  keys.filter (fun w => decide (query <+: w))

/-- `MarisaKanaKanjiDict::get`: predictive search on `kana ++ "\t"`; the
callback returns `false`, so only the first hit is processed — its payload
after the first TAB (every hit contains one, its prefix being `kana ++ TAB`)
is split on `/`. With no hit the still-empty surface list is returned as
`Some`. -/
def marisaGet (keys : List (List Char)) (kana : List Char) :
    Option (List (List Char)) :=
  match predictiveHits keys (kana ++ [TAB]) with
  | [] => some []
  | w :: _ =>
      let idx := w.findIdx (fun c => decide (c = TAB))
      some (splitSlash (w.drop (idx + 1)))

/-! ### The unigram LM builder (`akaza-make-system-lm/src/main.rs`) -/

/-- The per-line loop of `process_unigram` (file I/O and `f32` parsing sit
outside the embedding: the input is the already-parsed `(word, score)`
lines). After adding the `i`-th line, the check `i >= 8388608` panics with
"too much words.". -/
def processUnigramGo (acc : List (String × Cost)) (i : Nat) :
    List (String × Cost) → RunResult (List (String × Cost))
  | [] => .ok acc
  | l :: rest =>
      let acc' := acc ++ [l]
      let i' := i + 1
      if 8388608 ≤ i' then .panic "too much words."
      else processUnigramGo acc' i' rest

/-- `process_unigram`, returning the words handed to the LM builder. -/
def processUnigram (lines : List (String × Cost)) : RunResult (List (String × Cost)) :=
  processUnigramGo [] 0 lines

/-! ### Spec-modelled segmenter and graph builder (absent from `src/`) -/

/-- Byte length of a string given as characters. -/
def strBytes (cs : List Char) : Nat := (cs.map Char.utf8Size).sum

/-- Modelled from the spec (§4.1/§4.7, `kana_trie.rs` of akaza-core is not
under `src/`): the segmenter's common-prefix search returns the trie keys
that are prefixes of the query, in ascending length order. -/
def trieMatches (trie : List (List Char)) (suffix : List Char) : List (List Char) :=
  List.insertionSort (fun a b => a.length ≤ b.length)
    (trie.filter (fun k => decide (k ≠ []) && decide (k <+: suffix)))

/-- Modelled from the spec (§4.7): the segments starting at one position —
the trie matches, or a synthetic single-code-point segment when there is
none. -/
def segmentStep (trie : List (List Char)) (suffix : List Char) : List (List Char) :=
  let ms := trieMatches trie suffix
  if ms.isEmpty then [suffix.take 1] else ms

/-- Insert a segment into the ordered end-offset map (`BTreeMap` order). -/
def insertSeg (acc : List (Nat × List (List Char))) (e : Nat) (sub : List Char) :
    List (Nat × List (List Char)) :=
  match acc with
  | [] => [(e, [sub])]
  | (k, subs) :: rest =>
      if e = k then (k, subs ++ [sub]) :: rest
      else if e < k then (e, [sub]) :: (k, subs) :: rest
      else (k, subs) :: insertSeg rest e sub

/-- Modelled from the spec (§4.7, `segmenter.rs` is not under `src/`):
`Segmenter::build` — forward search over reachable character positions
(seeded with 0), recording each segment under its end byte offset. -/
def segmentAll (trie : List (List Char)) (yomi : List Char) :
    List (Nat × List (List Char)) :=
  ((List.range yomi.length).foldl
    (fun (st : List Nat × List (Nat × List (List Char))) s =>
      if s ∈ st.1 then
        (segmentStep trie (yomi.drop s)).foldl
          (fun st2 sub =>
            let e := s + sub.length
            ((if e ∈ st2.1 then st2.1 else st2.1 ++ [e]),
             insertSeg st2.2 (strBytes (yomi.take e)) sub))
          st
      else st)
    ([0], [])).2

/-- Modelled from the spec (§4.3/§4.8): the default cost an empty unigram LM
reports. -/
def DEFAULT_COST : Cost := -20

/-- Modelled from the spec (§4.8): the unknown-word penalty. -/
def UNKNOWN_PENALTY : Cost := 1

/-- Modelled from the spec (§4.8): the back-off edge cost
`default_cost * α` with α = 1/2 (exact on the chosen integer default). -/
def BACKOFF_EDGE_COST : Cost := -10

def bosNode : WordNode := ⟨-1, "__BOS__", "__BOS__"⟩

def eosNode (L : Nat) : WordNode := ⟨(L : Int), "__EOS__", "__EOS__"⟩

/-- Modelled from the spec (§4.8, `graph_builder.rs` and `lattice_graph.rs`
are not under `src/`), specialised to empty dictionaries and language
models: every segment becomes a single "leave as kana" fallback node with
node cost `default_cost − penalty`; every edge gets the unigram back-off
cost; BOS sits in the list at position 0 (start −1) and EOS in the list at
`L+1` (start `L`), `L` the byte length, so that each node's predecessor list
is the list at its start position. -/
def buildLatticeEmpty (yomi : List Char) (seg : List (Nat × List (List Char))) :
    LatticeGraph :=
  let L := strBytes yomi
  { yomi := String.mk yomi
    graph :=
      (0, [bosNode]) ::
        seg.map (fun e =>
          ((e.1 : Int),
           e.2.map (fun sub =>
             ⟨(e.1 : Int) - (strBytes sub : Int), String.mk sub, String.mk sub⟩)))
        ++ [((L : Int) + 1, [eosNode L])]
    nodeCost := fun _ => DEFAULT_COST - UNKNOWN_PENALTY
    edgeCost := fun _ _ => BACKOFF_EDGE_COST }

/-! ### Concrete data used by witnesses and counterexamples -/

/-- A one-character lattice node used by the witness lattice. -/
def nodeA : WordNode := ⟨0, "a", "a"⟩

/-- A small well-formed lattice over yomi "a": BOS, one real node, EOS. -/
def latW : LatticeGraph :=
  { yomi := "a"
    graph := [(0, [bosNode]), (1, [nodeA]), (2, [eosNode 1])]
    nodeCost := fun _ => -1
    edgeCost := fun _ _ => -1 }

/-- The prevmap `viterbi` computes on `latW`. -/
def pmW : List (WordNode × WordNode) := [(eosNode 1, nodeA), (nodeA, bosNode)]

/-- The costmap `viterbi` computes on `latW`. -/
def cmW : List (WordNode × Cost) := [(eosNode 1, -4), (nodeA, -2)]

/-- A node whose predecessor list exists but is empty. -/
def nodeX : WordNode := ⟨5, "x", "x"⟩

/-- A lattice whose only real node has an empty predecessor list. -/
def latC2 : LatticeGraph :=
  { yomi := "a"
    graph := [(0, [bosNode]), (1, [nodeX]), (5, [])]
    nodeCost := fun _ => -1
    edgeCost := fun _ _ => -1 }

/-- The kana trie of the `test_resolver` scenario: keys added in source
order `abc`, `ab`, `c`. -/
def trieABC : List (List Char) := [['a', 'b', 'c'], ['a', 'b'], ['c']]

def abcChars : List Char := ['a', 'b', 'c']

/-- The dictionary input of the C4 counterexample. -/
def dC4 : List (List Char × List (List Char)) := [(['t'], [['x']])]

/-- The dictionary input of the C9 witness. -/
def dC9 : List (List Char × List (List Char)) :=
  [(['a'], [['x'], ['y']]), (['b'], [['z']])]

/-- The surfaces the backtracking loop collects on its way down a chain of
visited nodes: every visited node's `kanji` except those named `"__EOS__"`
(in visit order — the loop later reverses them). -/
def collectSurfaces (ms : List WordNode) : List String :=
  (ms.filter (fun x => decide (x.kanji ≠ "__EOS__"))).map WordNode.kanji

/-! ## Association-list lookup lemmas -/

theorem alookup_cons_self {α : Type} (l : List (WordNode × α)) (n : WordNode) (v : α) :
    alookup ((n, v) :: l) n = some v := by
  simp [alookup]

theorem alookup_cons_ne {α : Type} (l : List (WordNode × α)) (k n : WordNode) (v : α)
    (h : k ≠ n) : alookup ((k, v) :: l) n = alookup l n := by
  simp [alookup, h]

theorem alookup_eq_none {α : Type} (l : List (WordNode × α)) (n : WordNode)
    (h : n ∉ l.map Prod.fst) : alookup l n = none := by
  induction l with
  | nil => rfl
  | cons e rest ih =>
      obtain ⟨k, v⟩ := e
      simp only [List.map_cons, List.mem_cons] at h
      push_neg at h
      simpa [alookup, Ne.symm h.1] using ih h.2

theorem alookup_append_left_none {α : Type} (l₁ l₂ : List (WordNode × α)) (n : WordNode)
    (h : n ∉ l₁.map Prod.fst) : alookup (l₁ ++ l₂) n = alookup l₂ n := by
  induction l₁ with
  | nil => rfl
  | cons e rest ih =>
      obtain ⟨k, v⟩ := e
      simp only [List.map_cons, List.mem_cons] at h
      push_neg at h
      simpa [alookup, Ne.symm h.1] using ih h.2

/-! ## The inner predecessor loop, characterised -/

theorem foldl_max_init (l : List Cost) (a : Cost) : a ≤ l.foldl max a := by
  induction l generalizing a with
  | nil => exact le_rfl
  | cons c cs ih => exact le_trans (le_max_left a c) (ih (max a c))

theorem foldl_max_mem (l : List Cost) (a x : Cost) (hx : x ∈ l) : x ≤ l.foldl max a := by
  induction l generalizing a with
  | nil => cases hx
  | cons c cs ih =>
      rcases List.mem_cons.mp hx with h | h
      · subst h
        exact le_trans (le_max_right a x) (foldl_max_init cs (max a x))
      · exact ih (max a c) h

theorem foldl_max_of_forall_le (l : List Cost) (a : Cost) (h : ∀ x ∈ l, x ≤ a) :
    l.foldl max a = a := by
  induction l with
  | nil => rfl
  | cons c cs ih =>
      have hc : c ≤ a := h c (List.mem_cons_self c cs)
      simp only [List.foldl_cons, max_eq_left hc]
      exact ih fun x hx => h x (List.mem_cons_of_mem c hx)

theorem foldl_max_cases (l : List Cost) (a : Cost) :
    l.foldl max a = a ∨ l.foldl max a ∈ l := by
  induction l generalizing a with
  | nil => exact Or.inl rfl
  | cons c cs ih =>
      rcases ih (max a c) with h | h
      · rcases le_total a c with hac | hca
        · right
          rw [List.foldl_cons, h, max_eq_right hac]
          exact List.mem_cons_self c cs
        · left
          rw [List.foldl_cons, h, max_eq_left hca]
      · right
        exact List.mem_cons_of_mem c h

theorem foldBP_fst (g : LatticeGraph) (cm : List (WordNode × Cost)) (n : WordNode) :
    ∀ (prevs : List WordNode) (a : Cost) (s : Option WordNode),
      (prevs.foldl (stepBP g cm n) (a, s)).1 =
        (prevs.map (candScore g cm n)).foldl max a := by
  intro prevs
  induction prevs with
  | nil => intro a s; rfl
  | cons p rest ih =>
      intro a s
      by_cases h : a < candScore g cm n p
      · simp only [List.foldl_cons, List.map_cons, stepBP, if_pos h,
          max_eq_right (le_of_lt h)]
        exact ih _ _
      · simp only [List.foldl_cons, List.map_cons, stepBP, if_neg h,
          max_eq_left (le_of_not_lt h)]
        exact ih _ _

theorem foldBP_noupdate (g : LatticeGraph) (cm : List (WordNode × Cost)) (n : WordNode) :
    ∀ (prevs : List WordNode) (a : Cost) (s : Option WordNode),
      (∀ c ∈ prevs.map (candScore g cm n), c ≤ a) →
      prevs.foldl (stepBP g cm n) (a, s) = (a, s) := by
  intro prevs
  induction prevs with
  | nil => intro a s _; rfl
  | cons p rest ih =>
      intro a s h
      have hp : candScore g cm n p ≤ a :=
        h _ (List.mem_cons_self _ _)
      simp only [List.foldl_cons, stepBP, if_neg (not_lt.mpr hp)]
      exact ih a s fun c hc => h c (List.mem_cons_of_mem _ hc)

theorem foldBP_find (g : LatticeGraph) (cm : List (WordNode × Cost)) (n : WordNode) :
    ∀ (prevs : List WordNode) (a : Cost) (s : Option WordNode),
      (∃ c ∈ prevs.map (candScore g cm n), a < c) →
      (prevs.foldl (stepBP g cm n) (a, s)).2 =
        prevs.find?
          (fun q => decide (candScore g cm n q = (prevs.foldl (stepBP g cm n) (a, s)).1)) := by
  intro prevs
  induction prevs with
  | nil => rintro a s ⟨c, hc, _⟩; cases hc
  | cons p rest ih =>
      intro a s hex
      by_cases h : a < candScore g cm n p
      · simp only [List.foldl_cons, stepBP, if_pos h]
        by_cases h2 : ∀ c ∈ rest.map (candScore g cm n), c ≤ candScore g cm n p
        · rw [foldBP_noupdate g cm n rest _ _ h2]
          have hfst : (candScore g cm n p, some p).1 = candScore g cm n p := rfl
          rw [List.find?_cons]
          simp [h2, foldl_max_of_forall_le _ _ h2, foldBP_fst]
        · push_neg at h2
          obtain ⟨c', hc', hgt⟩ := h2
          rw [ih _ _ ⟨c', hc', hgt⟩]
          have hne : candScore g cm n p ≠
              (rest.foldl (stepBP g cm n) (candScore g cm n p, some p)).1 := by
            rw [foldBP_fst]
            exact ne_of_lt (lt_of_lt_of_le hgt (foldl_max_mem _ _ _ hc'))
          rw [List.find?_cons]
          simp [hne]
      · simp only [List.foldl_cons, stepBP, if_neg h]
        obtain ⟨c, hc, hlt⟩ := hex
        rcases List.mem_cons.mp hc with rfl | hcrest
        · exact absurd hlt h
        · rw [ih _ _ ⟨c, hcrest, hlt⟩]
          have hp : candScore g cm n p ≤ a := le_of_not_lt h
          have hne : candScore g cm n p ≠ (rest.foldl (stepBP g cm n) (a, s)).1 := by
            rw [foldBP_fst]
            exact ne_of_lt (lt_of_le_of_lt hp (lt_of_lt_of_le hlt (foldl_max_mem _ _ _ hcrest)))
          rw [List.find?_cons]
          simp [hne]

/-- What the inner loop of `viterbi` computes when it does select a
predecessor: the stored cost is the maximum candidate score, it strictly
exceeds `f32::MIN`, and the stored predecessor is the first element of the
predecessor list attaining the maximum. -/
theorem chooseBest_eq_some (g : LatticeGraph) (cm : List (WordNode × Cost))
    (n : WordNode) (prevs : List WordNode) (M : Cost) (p : WordNode)
    (h : chooseBest g cm n prevs = (M, some p)) :
    f32Min < M ∧ M ∈ prevs.map (candScore g cm n) ∧
      (∀ c ∈ prevs.map (candScore g cm n), c ≤ M) ∧
      prevs.find? (fun q => decide (candScore g cm n q = M)) = some p := by
  by_cases hall : ∀ c ∈ prevs.map (candScore g cm n), c ≤ f32Min
  · rw [chooseBest, foldBP_noupdate g cm n prevs _ _ hall] at h
    exact absurd (congrArg Prod.snd h) (by simp)
  · push_neg at hall
    obtain ⟨c, hc, hlt⟩ := hall
    have hfst := foldBP_fst g cm n prevs f32Min none
    have hsnd := foldBP_find g cm n prevs f32Min none ⟨c, hc, hlt⟩
    rw [chooseBest] at h
    rw [h] at hfst hsnd
    have hM : M = (prevs.map (candScore g cm n)).foldl max f32Min := hfst
    have hMmem : f32Min < M := hM ▸ lt_of_lt_of_le hlt (foldl_max_mem _ _ _ hc)
    refine ⟨hMmem, ?_, ?_, ?_⟩
    · rcases foldl_max_cases (prevs.map (candScore g cm n)) f32Min with hcase | hcase
      · exact absurd (hM.trans hcase) (ne_of_gt hMmem)
      · exact hM ▸ hcase
    · intro c' hc'
      exact hM ▸ foldl_max_mem _ _ _ hc'
    · exact hsnd.symm

/-! ## The scoring phase, characterised -/

theorem find?_congr {α : Type} (l : List α) (f h : α → Bool)
    (hfh : ∀ x ∈ l, f x = h x) : l.find? f = l.find? h := by
  induction l with
  | nil => rfl
  | cons x rest ih =>
      rw [List.find?_cons, List.find?_cons, hfh x (List.mem_cons_self _ _)]
      cases h x
      · exact ih fun y hy => hfh y (List.mem_cons_of_mem _ hy)
      · rfl

theorem scoreNodes_append (g : LatticeGraph) (l₁ l₂ : List WordNode) :
    ∀ maps : Maps,
      scoreNodes g maps (l₁ ++ l₂) =
        match scoreNodes g maps l₁ with
        | .ok m => scoreNodes g m l₂
        | r => r := by
  induction l₁ with
  | nil => intro maps; rfl
  | cons n rest ih =>
      intro maps
      rw [List.cons_append, scoreNodes, scoreNodes]
      cases scoreNode g maps n
      · exact ih _
      · rfl
      · rfl
      · rfl

theorem scorePositions_eq_flat (g : LatticeGraph) :
    ∀ (is : List Int) (maps : Maps),
      scorePositions g maps is = scoreNodes g maps (is.flatMap (nodeListD g)) := by
  intro is
  induction is with
  | nil => intro maps; rfl
  | cons i rest ih =>
      intro maps
      rw [List.flatMap_cons, scoreNodes_append, scorePositions]
      cases hi : nodeList g i with
      | none =>
          simp only [nodeListD, hi, Option.getD_none, scoreNodes]
          exact ih maps
      | some nodes =>
          simp only [nodeListD, hi, Option.getD_some]
          cases h2 : scoreNodes g maps nodes with
          | ok m => exact ih m
          | err m => rfl
          | panic m => rfl
          | diverge => rfl

theorem scoreNodes_extend (g : LatticeGraph) :
    ∀ (todo : List WordNode) (pm : List (WordNode × WordNode))
      (cm : List (WordNode × Cost)) (pm' : List (WordNode × WordNode))
      (cm' : List (WordNode × Cost)),
      scoreNodes g (pm, cm) todo = .ok (pm', cm') →
      ∃ pmN cmN, pm' = pmN ++ pm ∧ cm' = cmN ++ cm ∧
        pmN.map Prod.fst = todo.reverse ∧ cmN.map Prod.fst = todo.reverse := by
  intro todo
  induction todo with
  | nil =>
      intro pm cm pm' cm' h
      obtain ⟨rfl, rfl⟩ : pm = pm' ∧ cm = cm' := by
        simpa [scoreNodes, Prod.ext_iff] using h
      exact ⟨[], [], by simp⟩
  | cons n rest ih =>
      intro pm cm pm' cm' h
      rw [scoreNodes] at h
      cases hprev : getPrevNodes g n with
      | none => rw [scoreNode, hprev] at h; cases h
      | some prevs =>
          cases hcb : chooseBest g cm n prevs with
          | mk cost sp =>
              cases sp with
              | none => rw [scoreNode, hprev] at h; simp only [hcb] at h; cases h
              | some p =>
                  rw [scoreNode, hprev] at h
                  simp only [hcb] at h
                  obtain ⟨pmN, cmN, hpm, hcm, hpk, hck⟩ := ih _ _ _ _ h
                  refine ⟨pmN ++ [(n, p)], cmN ++ [(n, cost)], ?_, ?_, ?_, ?_⟩
                  · simpa using hpm
                  · simpa using hcm
                  · simp [hpk]
                  · simp [hck]

/-- Soundness of the scoring loop: when it succeeds, every scored node got as
cost the maximum of `best_score[p] + edge_cost(p, n) + node_cost(n)` over its
predecessor list and as predecessor the first list element attaining that
maximum — all read off the final maps (a predecessor absent from the cost
map, i.e. BOS, contributes score 0). -/
theorem scoreNodes_sound (g : LatticeGraph) :
    ∀ (todo : List WordNode) (pm : List (WordNode × WordNode))
      (cm : List (WordNode × Cost)) (pm' : List (WordNode × WordNode))
      (cm' : List (WordNode × Cost)),
      scoreNodes g (pm, cm) todo = .ok (pm', cm') →
      todo.Nodup →
      PredsEarlier g todo →
      ∀ n ∈ todo,
        ∃ prevs M p,
          getPrevNodes g n = some prevs ∧
          alookup cm' n = some M ∧
          alookup pm' n = some p ∧
          f32Min < M ∧
          M ∈ prevs.map (candScore g cm' n) ∧
          (∀ c ∈ prevs.map (candScore g cm' n), c ≤ M) ∧
          prevs.find? (fun q => decide (candScore g cm' n q = M)) = some p := by
  intro todo
  induction todo with
  | nil => intro pm cm pm' cm' _ _ _ n hn; cases hn
  | cons hd rest ih =>
      intro pm cm pm' cm' h hnodup hpe n hn
      rw [scoreNodes] at h
      cases hprev : getPrevNodes g hd with
      | none => rw [scoreNode, hprev] at h; cases h
      | some prevs =>
          cases hcb : chooseBest g cm hd prevs with
          | mk M sp =>
              cases sp with
              | none => rw [scoreNode, hprev] at h; simp only [hcb] at h; cases h
              | some p =>
                  rw [scoreNode, hprev] at h
                  simp only [hcb] at h
                  have hhd_rest : hd ∉ rest := (List.nodup_cons.mp hnodup).1
                  have hrest_nodup : rest.Nodup := (List.nodup_cons.mp hnodup).2
                  obtain ⟨hpe1, hpe2⟩ := hpe
                  obtain ⟨pmN, cmN, hpm, hcm, hpk, hck⟩ := scoreNodes_extend g rest _ _ _ _ h
                  rcases List.mem_cons.mp hn with rfl | hnrest
                  · -- the head node itself
                    have hcmn : alookup cm' n = some M := by
                      rw [hcm, alookup_append_left_none _ _ _ (by rw [hck]; simpa using hhd_rest)]
                      exact alookup_cons_self _ _ _
                    have hpmn : alookup pm' n = some p := by
                      rw [hpm, alookup_append_left_none _ _ _ (by rw [hpk]; simpa using hhd_rest)]
                      exact alookup_cons_self _ _ _
                    have htrans : ∀ q ∈ prevs, alookup cm' q = alookup cm q := by
                      intro q hq
                      have hqnot : q ∉ n :: rest := hpe1 prevs hprev q hq
                      have hqrest : q ∉ rest := fun hmem => hqnot (List.mem_cons_of_mem _ hmem)
                      have hqhd : q ≠ n := fun he => hqnot (he ▸ List.mem_cons_self _ _)
                      rw [hcm, alookup_append_left_none _ _ _ (by rw [hck]; simpa using hqrest),
                        alookup_cons_ne _ _ _ _ (Ne.symm hqhd)]
                    have hcand : ∀ q ∈ prevs, candScore g cm' n q = candScore g cm n q := by
                      intro q hq
                      rw [candScore, candScore, htrans q hq]
                    obtain ⟨hmin, hmem, hle, hfind⟩ := chooseBest_eq_some g cm n prevs M p hcb
                    refine ⟨prevs, M, p, hprev, hcmn, hpmn, hmin, ?_, ?_, ?_⟩
                    · rwa [List.map_congr_left hcand]
                    · rw [List.map_congr_left hcand]; exact hle
                    · rw [find?_congr prevs _ _ (fun q hq => by rw [hcand q hq])]
                      exact hfind
                  · exact ih _ _ _ _ h hrest_nodup hpe2 n hnrest

/-! ## From lattice invariants to the loop hypotheses -/

theorem nodeList_entry (g : LatticeGraph) (i : Int) (l : List WordNode)
    (h : nodeList g i = some l) : ∃ e ∈ g.graph, e.1 = i ∧ e.2 = l := by
  rw [nodeList] at h
  cases hf : g.graph.find? (fun e => decide (e.1 = i)) with
  | none => rw [hf] at h; cases h
  | some e =>
      rw [hf] at h
      refine ⟨e, List.mem_of_find?_eq_some hf, ?_, ?_⟩
      · have h2 := List.find?_some hf
        exact of_decide_eq_true h2
      · simpa using h

theorem mem_nodeListD (g : LatticeGraph) (i : Int) (p : WordNode)
    (h : p ∈ nodeListD g i) : ∃ e ∈ g.graph, e.1 = i ∧ p ∈ e.2 := by
  rw [nodeListD] at h
  cases hl : nodeList g i with
  | none => rw [hl] at h; cases h
  | some l =>
      rw [hl] at h
      obtain ⟨e, he, hei, hel⟩ := nodeList_entry g i l hl
      exact ⟨e, he, hei, hel ▸ h⟩

theorem nodeListD_disjoint (g : LatticeGraph)
    (hdisj : ∀ e1 ∈ g.graph, ∀ e2 ∈ g.graph, e1.1 ≠ e2.1 → ∀ p ∈ e1.2, p ∉ e2.2)
    (i j : Int) (hij : i ≠ j) (p : WordNode)
    (hi : p ∈ nodeListD g i) (hj : p ∈ nodeListD g j) : False := by
  obtain ⟨e1, he1, he1i, hp1⟩ := mem_nodeListD g i p hi
  obtain ⟨e2, he2, he2j, hp2⟩ := mem_nodeListD g j p hj
  exact hdisj e1 he1 e2 he2 (by rw [he1i, he2j]; exact hij) p hp1 hp2

theorem nodeListD_nodup (g : LatticeGraph)
    (hnod : ∀ e ∈ g.graph, e.2.Nodup) (i : Int) : (nodeListD g i).Nodup := by
  rw [nodeListD]
  cases hl : nodeList g i with
  | none => exact List.nodup_nil
  | some l =>
      obtain ⟨e, he, _, hel⟩ := nodeList_entry g i l hl
      simpa [hel] using hnod e he

theorem predsEarlier_append (g : LatticeGraph) :
    ∀ (xs ys : List WordNode),
      (∀ n ∈ xs, ∀ prevs, getPrevNodes g n = some prevs →
        ∀ p ∈ prevs, p ∉ xs ∧ p ∉ ys) →
      PredsEarlier g ys → PredsEarlier g (xs ++ ys) := by
  intro xs
  induction xs with
  | nil => intro ys _ h2; exact h2
  | cons x rest ih =>
      intro ys h1 h2
      refine ⟨?_, ?_⟩
      · intro prevs hp p hpp hmem
        obtain ⟨hnx, hny⟩ := h1 x (List.mem_cons_self _ _) prevs hp p hpp
        rcases List.mem_cons.mp hmem with rfl | hmem'
        · exact hnx (List.mem_cons_self _ _)
        · rcases List.mem_append.mp hmem' with h | h
          · exact hnx (List.mem_cons_of_mem _ h)
          · exact hny h
      · exact ih ys
          (fun n hn prevs hp p hpp =>
            ⟨fun hmem => (h1 n (List.mem_cons_of_mem _ hn) prevs hp p hpp).1
                (List.mem_cons_of_mem _ hmem),
             (h1 n (List.mem_cons_of_mem _ hn) prevs hp p hpp).2⟩)
          h2

theorem predsEarlier_flat (g : LatticeGraph)
    (hdisj : ∀ e1 ∈ g.graph, ∀ e2 ∈ g.graph, e1.1 ≠ e2.1 → ∀ p ∈ e1.2, p ∉ e2.2) :
    ∀ is : List Int,
      is.Pairwise (· < ·) →
      (∀ i ∈ is, ∀ n ∈ nodeListD g i, n.start_pos < i) →
      PredsEarlier g (is.flatMap (nodeListD g)) := by
  intro is
  induction is with
  | nil => intro _ _; trivial
  | cons i rest ih =>
      intro hsort hadv
      rw [List.flatMap_cons]
      refine predsEarlier_append g _ _ ?_
        (ih (List.Pairwise.of_cons hsort)
          (fun j hj n hn => hadv j (List.mem_cons_of_mem _ hj) n hn))
      intro n hn prevs hp p hpp
      have hs : n.start_pos < i := hadv i (List.mem_cons_self _ _) n hn
      have hprevs : p ∈ nodeListD g n.start_pos := by
        rw [nodeListD, getPrevNodes] at *
        rw [hp]
        exact hpp
      constructor
      · intro hmem
        exact nodeListD_disjoint g hdisj n.start_pos i (ne_of_lt hs) p hprevs hmem
      · intro hmem
        obtain ⟨j, hj, hmemj⟩ := List.mem_flatMap.mp hmem
        have hij : i < j := (List.pairwise_cons.mp hsort).1 j hj
        exact nodeListD_disjoint g hdisj n.start_pos j (ne_of_lt (lt_trans hs hij))
          p hprevs hmemj

theorem nodup_flat (g : LatticeGraph)
    (hdisj : ∀ e1 ∈ g.graph, ∀ e2 ∈ g.graph, e1.1 ≠ e2.1 → ∀ p ∈ e1.2, p ∉ e2.2)
    (hnod : ∀ e ∈ g.graph, e.2.Nodup) :
    ∀ is : List Int, is.Pairwise (· < ·) → (is.flatMap (nodeListD g)).Nodup := by
  intro is
  induction is with
  | nil => intro _; exact List.nodup_nil
  | cons i rest ih =>
      intro hsort
      rw [List.flatMap_cons]
      refine (nodeListD_nodup g hnod i).append (ih (List.Pairwise.of_cons hsort)) ?_
      intro p hp hmem
      obtain ⟨j, hj, hmemj⟩ := List.mem_flatMap.mp hmem
      have hij : i < j := (List.pairwise_cons.mp hsort).1 j hj
      exact nodeListD_disjoint g hdisj i j (ne_of_lt hij) p hp hmemj

theorem positionsOf_pos (g : LatticeGraph) : ∀ i ∈ positionsOf g, 1 ≤ i := by
  intro i hi
  obtain ⟨k, _, rfl⟩ := List.mem_map.mp hi
  show (1 : Int) ≤ (k : Int) + 1
  omega

theorem positionsOf_sorted (g : LatticeGraph) : (positionsOf g).Pairwise (· < ·) := by
  rw [positionsOf, List.pairwise_map]
  refine (List.pairwise_lt_range _).imp ?_
  intro a b hab
  show (a : Int) + 1 < (b : Int) + 1
  omega

/-- Combined soundness of the scoring phase of `viterbi` on a well-formed
lattice: every scored node's cost-map entry is the maximum candidate score
over its predecessor list, its prevmap entry is the first predecessor
attaining it, and nodes at position 0 (BOS) never enter the cost map, so
their score reads as 0. -/
theorem viterbiScore_sound (g : LatticeGraph)
    (pm : List (WordNode × WordNode)) (cm : List (WordNode × Cost))
    (hok : viterbiScore g = .ok (pm, cm))
    (hdisj : ∀ e1 ∈ g.graph, ∀ e2 ∈ g.graph, e1.1 ≠ e2.1 → ∀ p ∈ e1.2, p ∉ e2.2)
    (hnod : ∀ e ∈ g.graph, e.2.Nodup)
    (hadv : ∀ i ∈ positionsOf g, ∀ n ∈ nodeListD g i, n.start_pos < i) :
    (∀ i ∈ positionsOf g, ∀ n ∈ nodeListD g i,
      ∃ prevs M p,
        getPrevNodes g n = some prevs ∧
        alookup cm n = some M ∧
        alookup pm n = some p ∧
        f32Min < M ∧
        M ∈ prevs.map (candScore g cm n) ∧
        (∀ c ∈ prevs.map (candScore g cm n), c ≤ M) ∧
        prevs.find? (fun q => decide (candScore g cm n q = M)) = some p) ∧
    (∀ b ∈ nodeListD g 0, alookup cm b = none) := by
  rw [viterbiScore, scorePositions_eq_flat] at hok
  have hnodup := nodup_flat g hdisj hnod (positionsOf g) (positionsOf_sorted g)
  have hpe := predsEarlier_flat g hdisj (positionsOf g) (positionsOf_sorted g) hadv
  constructor
  · intro i hi n hn
    exact scoreNodes_sound g _ _ _ _ _ hok hnodup hpe n
      (List.mem_flatMap.mpr ⟨i, hi, hn⟩)
  · intro b hb
    have hnot : b ∉ (positionsOf g).flatMap (nodeListD g) := by
      intro hmem
      obtain ⟨j, hj, hmemj⟩ := List.mem_flatMap.mp hmem
      have : (1 : Int) ≤ j := positionsOf_pos g j hj
      exact nodeListD_disjoint g hdisj 0 j (by omega) b hb hmemj
    obtain ⟨pmN, cmN, hpm, hcm, hpk, hck⟩ := scoreNodes_extend g _ _ _ _ _ hok
    rw [hcm]
    refine alookup_eq_none _ _ ?_
    rw [List.append_nil] at *
    rw [hck]
    simpa using hnot

/-! ## C1 and C6: the Viterbi recurrence and its tie-break -/

/-- C1: the viterbi resolver processes end positions `e` from 1 to `L+1` in
ascending order and, for every node `n` ending at `e`, computes for each
predecessor `p` (the nodes ending at `n.start_pos`) the score
`best_score[p] + edge_cost(p, n) + node_cost(n)`, retains a predecessor
maximizing this score (costs are maximized: higher is better), stores the
maximum in `best_score[n]` (the cost map) and the arg-max in `best_prev[n]`
(the prev map), and uses `best_score[BOS] = 0` — nodes at position 0 never
enter the cost map, so their score reads as the default 0. Stated over the
final maps of a successful scoring run on a well-formed lattice (each node in
exactly one position's duplicate-free list, edges advancing); ascending-order
processing is what makes the recurrence well-founded, every predecessor's
entry being final before it is read. -/
theorem viterbi_computes_max_score_recurrence (g : LatticeGraph)
    (pm : List (WordNode × WordNode)) (cm : List (WordNode × Cost))
    (hok : viterbiScore g = .ok (pm, cm))
    (hdisj : ∀ e1 ∈ g.graph, ∀ e2 ∈ g.graph, e1.1 ≠ e2.1 → ∀ p ∈ e1.2, p ∉ e2.2)
    (hnod : ∀ e ∈ g.graph, e.2.Nodup)
    (hadv : ∀ i ∈ positionsOf g, ∀ n ∈ nodeListD g i, n.start_pos < i) :
    (∀ i ∈ positionsOf g, ∀ n ∈ nodeListD g i,
      ∃ prevs M p,
        getPrevNodes g n = some prevs ∧
        alookup cm n = some M ∧
        alookup pm n = some p ∧
        M ∈ prevs.map (candScore g cm n) ∧
        (∀ c ∈ prevs.map (candScore g cm n), c ≤ M) ∧
        p ∈ prevs ∧ candScore g cm n p = M) ∧
    (∀ b ∈ nodeListD g 0, alookup cm b = none) := by
  obtain ⟨h1, h2⟩ := viterbiScore_sound g pm cm hok hdisj hnod hadv
  refine ⟨?_, h2⟩
  intro i hi n hn
  obtain ⟨prevs, M, p, hp, hcm, hpm, _, hmem, hle, hfind⟩ := h1 i hi n hn
  have hpmem : p ∈ prevs := List.mem_of_find?_eq_some hfind
  have hcand : candScore g cm n p = M := by
    have h3 := List.find?_some hfind
    exact of_decide_eq_true h3
  exact ⟨prevs, M, p, hp, hcm, hpm, hmem, hle, hpmem, hcand⟩

/-- C1 witness: the recurrence instantiated on the concrete lattice `latW`,
whose scoring run is evaluated by `decide`. -/
theorem viterbi_computes_max_score_recurrence_witness :
    viterbiScore latW = .ok (pmW, cmW) ∧
    ((∀ i ∈ positionsOf latW, ∀ n ∈ nodeListD latW i,
      ∃ prevs M p,
        getPrevNodes latW n = some prevs ∧
        alookup cmW n = some M ∧
        alookup pmW n = some p ∧
        M ∈ prevs.map (candScore latW cmW n) ∧
        (∀ c ∈ prevs.map (candScore latW cmW n), c ≤ M) ∧
        p ∈ prevs ∧ candScore latW cmW n p = M) ∧
    (∀ b ∈ nodeListD latW 0, alookup cmW b = none)) :=
  ⟨by decide,
   viterbi_computes_max_score_recurrence latW pmW cmW (by decide) (by decide)
     (by decide) (by decide)⟩

/-- C6: when two predecessors of a node yield equal scores in the Viterbi
recurrence, the predecessor inserted first into the node's predecessor list
is retained (the update guard `cost < tmp_cost` is strict, so a later equal
score never replaces an earlier one): the stored predecessor is the first
element of the predecessor list whose candidate score equals the stored
maximum (`List.find?` returns the first match), making the selection
deterministic. -/
theorem viterbi_tie_breaks_first_inserted (g : LatticeGraph)
    (pm : List (WordNode × WordNode)) (cm : List (WordNode × Cost))
    (hok : viterbiScore g = .ok (pm, cm))
    (hdisj : ∀ e1 ∈ g.graph, ∀ e2 ∈ g.graph, e1.1 ≠ e2.1 → ∀ p ∈ e1.2, p ∉ e2.2)
    (hnod : ∀ e ∈ g.graph, e.2.Nodup)
    (hadv : ∀ i ∈ positionsOf g, ∀ n ∈ nodeListD g i, n.start_pos < i) :
    ∀ i ∈ positionsOf g, ∀ n ∈ nodeListD g i,
      ∃ prevs M p,
        getPrevNodes g n = some prevs ∧
        alookup cm n = some M ∧
        alookup pm n = some p ∧
        prevs.find? (fun q => decide (candScore g cm n q = M)) = some p := by
  obtain ⟨h1, _⟩ := viterbiScore_sound g pm cm hok hdisj hnod hadv
  intro i hi n hn
  obtain ⟨prevs, M, p, hp, hcm, hpm, _, _, _, hfind⟩ := h1 i hi n hn
  exact ⟨prevs, M, p, hp, hcm, hpm, hfind⟩

/-- C6 witness: the tie-break statement instantiated on the concrete lattice
`latW`. -/
theorem viterbi_tie_breaks_first_inserted_witness :
    viterbiScore latW = .ok (pmW, cmW) ∧
    (∀ i ∈ positionsOf latW, ∀ n ∈ nodeListD latW i,
      ∃ prevs M p,
        getPrevNodes latW n = some prevs ∧
        alookup cmW n = some M ∧
        alookup pmW n = some p ∧
        prevs.find? (fun q => decide (candScore latW cmW n q = M)) = some p) :=
  ⟨by decide,
   viterbi_tie_breaks_first_inserted latW pmW cmW (by decide) (by decide)
     (by decide) (by decide)⟩

/-! ## C2: an empty predecessor list makes `viterbi` panic, not error -/

theorem scoreNode_ok_or_panic (g : LatticeGraph) (maps : Maps) (n : WordNode) :
    (∃ m, scoreNode g maps n = .ok m) ∨ (∃ s, scoreNode g maps n = .panic s) := by
  cases hp : getPrevNodes g n with
  | none => exact Or.inr ⟨"Cannot get prev nodes", by simp only [scoreNode, hp]⟩
  | some prevs =>
      cases hcb : chooseBest g maps.2 n prevs with
      | mk cost sp =>
          cases sp with
          | none =>
              exact Or.inr ⟨"Option.unwrap on None", by simp only [scoreNode, hp, hcb]⟩
          | some p =>
              exact Or.inl ⟨((n, p) :: maps.1, (n, cost) :: maps.2),
                by simp only [scoreNode, hp, hcb]⟩

theorem scoreNodes_panic_of_bad (g : LatticeGraph) :
    ∀ (todo : List WordNode) (maps : Maps) (n : WordNode), n ∈ todo →
      (getPrevNodes g n = some [] ∨ getPrevNodes g n = none) →
      ∃ msg, scoreNodes g maps todo = .panic msg := by
  intro todo
  induction todo with
  | nil => intro maps n hn; cases hn
  | cons hd rest ih =>
      intro maps n hn hbad
      rcases List.mem_cons.mp hn with rfl | hn'
      · rcases hbad with h | h
        · have hsn : scoreNode g maps n = .panic "Option.unwrap on None" := by
            have hcb : chooseBest g maps.2 n [] = (f32Min, none) := rfl
            simp only [scoreNode, h, hcb]
          exact ⟨"Option.unwrap on None", by rw [scoreNodes, hsn]⟩
        · have hsn : scoreNode g maps n = .panic "Cannot get prev nodes" := by
            simp only [scoreNode, h]
          exact ⟨"Cannot get prev nodes", by rw [scoreNodes, hsn]⟩
      · rcases scoreNode_ok_or_panic g maps hd with ⟨m, hm⟩ | ⟨s, hs⟩
        · obtain ⟨msg, hmsg⟩ := ih m n hn' hbad
          exact ⟨msg, by rw [scoreNodes, hm]; exact hmsg⟩
        · exact ⟨s, by rw [scoreNodes, hs]⟩

/-- C2 amended: if any non-BOS node of the lattice (a node in the list of one
of the visited positions 1..L+1) has an empty — or missing — predecessor
list, `viterbi` panics (aborting the process) in every build profile; it
never returns an "incomplete segmentation" error to the caller. -/
theorem viterbi_incomplete_lattice_panics (g : LatticeGraph) (i : Int)
    (hi : i ∈ positionsOf g) (n : WordNode) (hn : n ∈ nodeListD g i)
    (hbad : getPrevNodes g n = some [] ∨ getPrevNodes g n = none) :
    ∃ msg, viterbi g = .panic msg := by
  have hflat : n ∈ (positionsOf g).flatMap (nodeListD g) :=
    List.mem_flatMap.mpr ⟨i, hi, hn⟩
  obtain ⟨msg, hmsg⟩ :=
    scoreNodes_panic_of_bad g ((positionsOf g).flatMap (nodeListD g)) ([], []) n hflat hbad
  have hscore : viterbiScore g = .panic msg := by
    rw [viterbiScore, scorePositions_eq_flat]
    exact hmsg
  exact ⟨msg, by rw [viterbi, hscore]⟩

/-- C2 counterexample: on the concrete lattice `latC2`, whose single real
node has an empty predecessor list, `viterbi` panics (the claim says it
should return an error to the caller in release builds; the source's
`shortest_prev.unwrap()` aborts in every profile, and the `err` outcome never
occurs). -/
theorem viterbi_incomplete_lattice_no_error_example :
    viterbi latC2 = RunResult.panic "Option.unwrap on None" ∧
    RunResult.isError (viterbi latC2) = false := by
  exact ⟨by decide, by decide⟩

/-- C2 witness: the amended statement applied to the concrete lattice
`latC2`. -/
theorem viterbi_incomplete_lattice_panics_witness :
    ∃ msg, viterbi latC2 = .panic msg :=
  viterbi_incomplete_lattice_panics latC2 1 (by decide) nodeX (by decide)
    (Or.inl (by decide))

/-! ## C8: backtracking from EOS to BOS -/

theorem alookup_mem_keys {α : Type} (l : List (WordNode × α)) (x : WordNode) (v : α)
    (h : alookup l x = some v) : x ∈ l.map Prod.fst := by
  induction l with
  | nil => cases h
  | cons e rest ih =>
      obtain ⟨k, w⟩ := e
      rw [alookup] at h
      by_cases hk : k = x
      · subst hk
        exact List.mem_cons_self _ _
      · rw [if_neg hk] at h
        exact List.mem_cons_of_mem _ (ih h)

theorem backtracks_subset_keys (pm : List (WordNode × WordNode)) (bos : WordNode) :
    ∀ (n : WordNode) (ms : List WordNode), Backtracks pm bos n ms →
      ∀ x ∈ ms, x ∈ pm.map Prod.fst := by
  intro n ms h
  induction h with
  | done => intro x hx; cases hx
  | step hne hlk hbt ih =>
      intro x hx
      rcases List.mem_cons.mp hx with rfl | hx'
      · exact alookup_mem_keys _ _ _ hlk
      · exact ih x hx'

theorem backtracks_length_le (pm : List (WordNode × WordNode)) (bos n : WordNode)
    (ms : List WordNode) (h : Backtracks pm bos n ms) (hnd : ms.Nodup) :
    ms.length ≤ pm.length := by
  have hsub : ms ⊆ pm.map Prod.fst := fun x hx =>
    backtracks_subset_keys pm bos n ms h x hx
  have hle := (List.subperm_of_subset hnd hsub).length_le
  simpa using hle

theorem backtrackGo_ok (pm : List (WordNode × WordNode)) (bos : WordNode) :
    ∀ (n : WordNode) (ms : List WordNode), Backtracks pm bos n ms →
      ∀ (fuel : Nat), ms.length + 1 ≤ fuel → ∀ acc : List String,
        backtrackGo pm bos fuel n acc = .ok (acc ++ collectSurfaces ms) := by
  intro n ms h
  induction h with
  | done =>
      intro fuel hf acc
      cases fuel with
      | zero => omega
      | succ f =>
          simp [backtrackGo, collectSurfaces]
  | @step n' m' ms' hne hlk hbt ih =>
      intro fuel hf acc
      cases fuel with
      | zero => simp at hf
      | succ f =>
          rw [backtrackGo, if_neg hne, hlk]
          show backtrackGo pm bos f m'
              (if n'.kanji = "__EOS__" then acc else acc ++ [n'.kanji]) =
            RunResult.ok (acc ++ collectSurfaces (n' :: ms'))
          have hf' : ms'.length + 1 ≤ f := by
            simp only [List.length_cons] at hf
            omega
          by_cases hk : n'.kanji = "__EOS__"
          · rw [if_pos hk, ih f hf']
            simp [collectSurfaces, hk]
          · rw [if_neg hk, ih f hf']
            simp [collectSurfaces, hk]

/-- C8: after scoring, `viterbi` backtracks from EOS (the first node stored
at position `L+1`) via `best_prev` until BOS (the first node at position 0),
reverses the collected surfaces and returns their concatenation, omitting the
BOS surface (the walk stops before `bos`) and the EOS surfaces (every visited
node whose `kanji` is `"__EOS__"` is skipped when collecting). `ms` is the
chain of visited nodes; its `Nodup` guarantees the source loop terminates
within the provided fuel. -/
theorem viterbi_backtracks_and_joins (g : LatticeGraph)
    (pm : List (WordNode × WordNode)) (cm : List (WordNode × Cost))
    (eos bos : WordNode) (eosRest bosRest ms : List WordNode)
    (hok : viterbiScore g = .ok (pm, cm))
    (heos : nodeList g ((g.yomi.utf8ByteSize : Int) + 1) = some (eos :: eosRest))
    (hbos : nodeList g 0 = some (bos :: bosRest))
    (hbt : Backtracks pm bos eos ms)
    (hnd : ms.Nodup) :
    viterbi g = .ok (String.join (collectSurfaces ms).reverse) := by
  have hlen : ms.length ≤ pm.length := backtracks_length_le pm bos eos ms hbt hnd
  have hgo := backtrackGo_ok pm bos eos ms hbt (pm.length + 2) (by omega) []
  simp only [viterbi, hok, heos, hbos, List.head?_cons, hgo, List.nil_append]

/-- C8 witness: the backtracking statement applied to the concrete lattice
`latW`, whose chain EOS → "a"-node → BOS yields the surface string "a". -/
theorem viterbi_backtracks_and_joins_witness :
    viterbi latW = .ok (String.join (collectSurfaces [eosNode 1, nodeA]).reverse) :=
  viterbi_backtracks_and_joins latW pmW cmW (eosNode 1) bosNode [] [] [eosNode 1, nodeA]
    (by decide) (by decide) (by decide)
    (Backtracks.step (by decide) (by decide)
      (Backtracks.step (by decide) (by decide) Backtracks.done))
    (by decide)

/-! ## C3 and C10: the crawdad common-prefix search -/

theorem collectMatches_none (query : List Char) :
    ∀ (ss : List Nat) (s : Nat), s ∈ ss → ¬ s < query.length →
      collectMatches query ss = none := by
  intro ss
  induction ss with
  | nil => intro s hs; cases hs
  | cons t ts ih =>
      intro s hs hlt
      rcases List.mem_cons.mp hs with rfl | hs'
      · rw [collectMatches, if_neg hlt]
      · rw [collectMatches]
        by_cases ht : t < query.length
        · rw [if_pos ht, ih s hs' hlt]
          rfl
        · rw [if_neg ht]

theorem collectMatches_some (query : List Char) :
    ∀ ss : List Nat, (∀ s ∈ ss, s < query.length) →
      collectMatches query ss = some (ss.map (fun s => query.take s)) := by
  intro ss
  induction ss with
  | nil => intro _; rfl
  | cons t ts ih =>
      intro h
      rw [collectMatches, if_pos (h t (List.mem_cons_self _ _)),
        ih (fun s hs => h s (List.mem_cons_of_mem _ hs))]
      rfl

theorem strBytes_append (a b : List Char) : strBytes (a ++ b) = strBytes a + strBytes b := by
  simp [strBytes]

theorem strBytes_pos (cs : List Char) (h : cs ≠ []) : 0 < strBytes cs := by
  cases cs with
  | nil => exact absurd rfl h
  | cons c rest =>
      have hc : 0 < c.utf8Size := Char.utf8Size_pos c
      have : 0 ≤ strBytes rest := Nat.zero_le _
      simp only [strBytes, List.map_cons, List.sum_cons]
      omega

theorem strBytes_take_lt (q : List Char) (s t : Nat) (hst : s < t) (ht : t ≤ q.length) :
    strBytes (q.take s) < strBytes (q.take t) := by
  have hsplit : q.take t = q.take s ++ (q.take t).drop s := by
    have h1 : (q.take t).take s = q.take s := by
      rw [List.take_take, min_eq_left (le_of_lt hst)]
    conv_lhs => rw [← List.take_append_drop s (q.take t)]
    rw [h1]
  have hlen : ((q.take t).drop s).length = t - s := by
    rw [List.length_drop, List.length_take_of_le ht]
  have hne : (q.take t).drop s ≠ [] := by
    intro h
    rw [h] at hlen
    simp at hlen
    omega
  have := strBytes_pos _ hne
  rw [hsplit, strBytes_append]
  omega

theorem crawdadMatches_lt (keys : List (List Char)) (query : List Char)
    (hq : query ∉ keys) : ∀ s ∈ crawdadMatches keys query, s < query.length := by
  intro s hs
  rw [crawdadMatches] at hs
  obtain ⟨hmem, hpred⟩ := List.mem_filter.mp hs
  obtain ⟨k, hk, rfl⟩ := List.mem_map.mp hmem
  have hk' : k < query.length := List.mem_range.mp hk
  rcases lt_or_eq_of_le (Nat.succ_le_of_lt hk') with h | h
  · exact h
  · exfalso
    have htake : query.take (k + 1) ∈ keys := of_decide_eq_true hpred
    have h1 : k + 1 = query.length := h
    rw [h1, List.take_length] at htake
    exact hq htake

/-- C10: `CrawdadKanaTrie::common_prefix_search` is not total — whenever the
query itself is a stored key (the case of a match consuming the entire
query), the lookup `query.char_indices().nth(s).unwrap()` with `s` equal to
the query's character count finds no index and the function panics (`none`
in the embedding). -/
theorem commonPrefixSearch_panics_when_key_consumes_query
    (keys : List (List Char)) (query : List Char)
    (hk : query ∈ keys) (hne : query ≠ []) :
    commonPrefixSearch keys query = none := by
  have hlen : 1 ≤ query.length := List.length_pos.mpr hne
  have hmem : query.length ∈ crawdadMatches keys query := by
    rw [crawdadMatches]
    refine List.mem_filter.mpr ⟨?_, ?_⟩
    · refine List.mem_map.mpr ⟨query.length - 1, List.mem_range.mpr (by omega), by omega⟩
    · exact decide_eq_true (by rw [List.take_length]; exact hk)
  exact collectMatches_none query _ _ hmem (lt_irrefl _)

/-- C10 witness: the panic on a concrete trie containing the query "c". -/
theorem commonPrefixSearch_panics_when_key_consumes_query_witness :
    commonPrefixSearch [['a', 'b'], ['c']] ['c'] = none :=
  commonPrefixSearch_panics_when_key_consumes_query [['a', 'b'], ['c']] ['c']
    (by decide) (by decide)

/-- C3 counterexample: with trie keys `{"c"}` and query `"c"`, the key "c" is
a trie key that is a prefix of the query, so the claimed contract demands the
sequence `["c"]`; instead the function panics (`none`), because the matched
key consumes the whole query. -/
theorem commonPrefixSearch_full_match_counterexample :
    commonPrefixSearch [['c']] ['c'] = none ∧
      ['c'] ∈ [['c']] ∧ ['c'] <+: ['c'] := by
  refine ⟨by decide, by decide, by decide⟩

/-- C3 amended: provided no trie key equals the whole query (and trie keys
are non-empty), `common_prefix_search` returns exactly the trie keys that are
prefixes of the query, in strictly ascending byte-length order (hence
duplicate-free), and the empty query yields the empty sequence. When some key
equals the whole query the function instead panics (C10). -/
theorem commonPrefixSearch_returns_proper_prefix_keys
    (keys : List (List Char)) (query : List Char)
    (hq : query ∉ keys) (hnil : [] ∉ keys) :
    ∃ res, commonPrefixSearch keys query = some res ∧
      (∀ k, k ∈ res ↔ (k ∈ keys ∧ k <+: query)) ∧
      res.Pairwise (fun a b => strBytes a < strBytes b) ∧
      (query = [] → res = []) := by
  have hall := crawdadMatches_lt keys query hq
  refine ⟨(crawdadMatches keys query).map (fun s => query.take s), ?_, ?_, ?_, ?_⟩
  · rw [commonPrefixSearch]
    exact collectMatches_some query _ hall
  · intro k
    constructor
    · intro hk
      obtain ⟨s, hs, rfl⟩ := List.mem_map.mp hk
      obtain ⟨_, hpred⟩ := List.mem_filter.mp (by rw [crawdadMatches] at hs; exact hs)
      exact ⟨of_decide_eq_true hpred, List.take_prefix s query⟩
    · rintro ⟨hkk, hkp⟩
      have hklen : k.length ≤ query.length := hkp.length_le
      have hkeq : query.take k.length = k := (List.prefix_iff_eq_take.mp hkp).symm
      have hkne : k ≠ [] := fun h => hnil (h ▸ hkk)
      have hlen1 : 1 ≤ k.length := List.length_pos.mpr hkne
      refine List.mem_map.mpr ⟨k.length, ?_, hkeq⟩
      rw [crawdadMatches]
      refine List.mem_filter.mpr ⟨?_, ?_⟩
      · have hkq : k.length < query.length ∨ k.length = query.length :=
          lt_or_eq_of_le hklen
        rcases hkq with h | h
        · exact List.mem_map.mpr ⟨k.length - 1, List.mem_range.mpr (by omega), by omega⟩
        · exfalso
          rw [h, List.take_length] at hkeq
          exact hq (hkeq ▸ hkk)
      · exact decide_eq_true (by rw [hkeq]; exact hkk)
  · have hpair : (crawdadMatches keys query).Pairwise (· < ·) := by
      rw [crawdadMatches]
      refine List.Pairwise.filter _ ?_
      rw [List.pairwise_map]
      refine (List.pairwise_lt_range _).imp ?_
      intro a b hab
      omega
    rw [List.pairwise_map]
    refine hpair.imp_of_mem ?_
    intro s t hs ht hst
    exact strBytes_take_lt query s t hst (le_of_lt (hall t ht))
  · intro hq0
    subst hq0
    rfl

/-- C3 witness: the amended statement applied to the keys `{"wa", "wata"}`
and the query `"wat"`, where no key consumes the whole query. -/
theorem commonPrefixSearch_returns_proper_prefix_keys_witness :
    ∃ res, commonPrefixSearch [['w', 'a'], ['w', 'a', 't', 'a']] ['w', 'a', 't'] = some res ∧
      (∀ k, k ∈ res ↔ (k ∈ [['w', 'a'], ['w', 'a', 't', 'a']] ∧ k <+: ['w', 'a', 't'])) ∧
      res.Pairwise (fun a b => strBytes a < strBytes b) ∧
      (['w', 'a', 't'] = ([] : List Char) → res = []) :=
  commonPrefixSearch_returns_proper_prefix_keys [['w', 'a'], ['w', 'a', 't', 'a']]
    ['w', 'a', 't'] (by decide) (by decide)

/-! ## C4 and C9: the marisa kana-kanji dictionary -/

theorem prefix_tab_eq : ∀ (a b p : List Char), TAB ∉ a → TAB ∉ b →
    (a ++ [TAB]) <+: (b ++ TAB :: p) → a = b := by
  intro a
  induction a with
  | nil =>
      intro b p _ hb h
      cases b with
      | nil => rfl
      | cons c b' =>
          exfalso
          obtain ⟨h1, _⟩ := List.cons_prefix_cons.mp h
          exact hb (h1 ▸ List.mem_cons_self _ _)
  | cons x a' ih =>
      intro b p ha hb h
      cases b with
      | nil =>
          exfalso
          obtain ⟨h1, _⟩ := List.cons_prefix_cons.mp h
          exact ha (h1 ▸ List.mem_cons_self _ _)
      | cons y b' =>
          obtain ⟨h1, h2⟩ := List.cons_prefix_cons.mp h
          have ha' : TAB ∉ a' := fun hm => ha (List.mem_cons_of_mem _ hm)
          have hb' : TAB ∉ b' := fun hm => hb (List.mem_cons_of_mem _ hm)
          rw [h1, ih b' p ha' hb' h2]

theorem splitSlash_ne_nil : ∀ s : List Char, splitSlash s ≠ [] := by
  intro s
  cases s with
  | nil => simp [splitSlash]
  | cons c rest =>
      rw [splitSlash]
      cases splitSlash rest with
      | nil => simp
      | cons s0 ss =>
          by_cases hc : c = SLASH
          · simp [hc]
          · simp [hc]

theorem splitSlash_no_slash : ∀ s : List Char, SLASH ∉ s → splitSlash s = [s] := by
  intro s
  induction s with
  | nil => intro _; rfl
  | cons c rest ih =>
      intro h
      have hc : c ≠ SLASH := fun he => h (he ▸ List.mem_cons_self _ _)
      have hrest : SLASH ∉ rest := fun hm => h (List.mem_cons_of_mem _ hm)
      rw [splitSlash, ih hrest]
      simp [hc]

theorem splitSlash_append : ∀ (s t : List Char), SLASH ∉ s →
    splitSlash (s ++ SLASH :: t) = s :: splitSlash t := by
  intro s
  induction s with
  | nil =>
      intro t _
      rw [List.nil_append, splitSlash]
      cases hst : splitSlash t with
      | nil => exact absurd hst (splitSlash_ne_nil t)
      | cons s0 ss =>
          simp
  | cons c s' ih =>
      intro t h
      have hc : c ≠ SLASH := fun he => h (he ▸ List.mem_cons_self _ _)
      have hs' : SLASH ∉ s' := fun hm => h (List.mem_cons_of_mem _ hm)
      rw [List.cons_append, splitSlash, ih t hs']
      simp [hc]

theorem splitSlash_join : ∀ ss : List (List Char), ss ≠ [] →
    (∀ s ∈ ss, SLASH ∉ s) → splitSlash (joinSurfaces ss) = ss := by
  intro ss
  induction ss with
  | nil => intro h _; exact absurd rfl h
  | cons s rest ih =>
      intro _ hsl
      cases rest with
      | nil =>
          rw [joinSurfaces]
          exact splitSlash_no_slash s (hsl s (List.mem_cons_self _ _))
      | cons s2 rest' =>
          rw [joinSurfaces, splitSlash_append s _ (hsl s (List.mem_cons_self _ _)),
            ih (List.cons_ne_nil s2 rest') (fun x hx => hsl x (List.mem_cons_of_mem _ hx))]
          simp

theorem findIdx_tab : ∀ (kana rest : List Char), TAB ∉ kana →
    (kana ++ TAB :: rest).findIdx (fun c => decide (c = TAB)) = kana.length := by
  intro kana
  induction kana with
  | nil => intro rest _; simp [List.findIdx_cons]
  | cons c kana' ih =>
      intro rest h
      have hc : c ≠ TAB := fun he => h (he ▸ List.mem_cons_self _ _)
      have h' : TAB ∉ kana' := fun hm => h (List.mem_cons_of_mem _ hm)
      rw [List.cons_append, List.findIdx_cons]
      simp [hc, ih rest h']

theorem drop_after_sep : ∀ (kana t : List Char),
    (kana ++ TAB :: t).drop (kana.length + 1) = t := by
  intro kana
  induction kana with
  | nil => intro t; rfl
  | cons c kana' ih => intro t; simp [ih t]

theorem dictKey_prefix_iff (e : List Char × List (List Char)) (kana : List Char)
    (hetab : TAB ∉ e.1) (hktab : TAB ∉ kana) :
    (kana ++ [TAB]) <+: dictKey e ↔ e.1 = kana := by
  constructor
  · intro h
    exact (prefix_tab_eq kana e.1 (joinSurfaces e.2) hktab hetab h).symm
  · intro h
    rw [dictKey, h]
    have : kana ++ TAB :: joinSurfaces e.2 = (kana ++ [TAB]) ++ joinSurfaces e.2 := by
      simp
    rw [this]
    exact List.prefix_append _ _

theorem predictiveHits_single (dicts : List (List Char × List (List Char)))
    (kana : List Char) (surfaces : List (List Char))
    (hmem : (kana, surfaces) ∈ dicts)
    (hnodup : (dicts.map Prod.fst).Nodup)
    (htab : ∀ e ∈ dicts, TAB ∉ e.1)
    (hktab : TAB ∉ kana) :
    predictiveHits (dictBuild dicts) (kana ++ [TAB]) = [dictKey (kana, surfaces)] := by
  induction dicts with
  | nil => cases hmem
  | cons e rest ih =>
      have hnodup' : (rest.map Prod.fst).Nodup := (List.nodup_cons.mp hnodup).2
      have hhead : e.1 ∉ rest.map Prod.fst := (List.nodup_cons.mp hnodup).1
      by_cases hek : e.1 = kana
      · have he : e = (kana, surfaces) := by
          rcases List.mem_cons.mp hmem with h | h
          · exact h.symm
          · exfalso
            apply hhead
            rw [hek]
            exact List.mem_map.mpr ⟨(kana, surfaces), h, rfl⟩
        subst he
        rw [dictBuild, List.map_cons, predictiveHits, List.filter_cons]
        have hpre : (kana ++ [TAB]) <+: dictKey (kana, surfaces) :=
          (dictKey_prefix_iff (kana, surfaces) kana
            (htab _ (List.mem_cons_self _ _)) hktab).mpr hek
        rw [if_pos (decide_eq_true hpre)]
        have hrest : (rest.map dictKey).filter
            (fun w => decide ((kana ++ [TAB]) <+: w)) = [] := by
          refine List.filter_eq_nil_iff.mpr ?_
          intro w hw
          obtain ⟨e', he', rfl⟩ := List.mem_map.mp hw
          intro hp
          have hpre' : (kana ++ [TAB]) <+: dictKey e' := of_decide_eq_true hp
          have he'k : e'.1 = kana :=
            (dictKey_prefix_iff e' kana (htab _ (List.mem_cons_of_mem _ he')) hktab).mp hpre'
          apply hhead
          rw [hek]
          exact List.mem_map.mpr ⟨e', he', he'k⟩
        rw [hrest]
      · have hmem' : (kana, surfaces) ∈ rest := by
          rcases List.mem_cons.mp hmem with h | h
          · exact absurd (congrArg Prod.fst h.symm) hek
          · exact h
        rw [dictBuild, List.map_cons, predictiveHits, List.filter_cons]
        have hnp : ¬ (kana ++ [TAB]) <+: dictKey e := fun hp =>
          hek ((dictKey_prefix_iff e kana (htab _ (List.mem_cons_self _ _)) hktab).mp hp)
        rw [if_neg (by simpa using hnp)]
        exact ih hmem' hnodup' (fun e' he' => htab e' (List.mem_cons_of_mem _ he'))

/-- C9: for a reading present in the dictionary (readings distinct and
TAB-free, surfaces slash-free, a non-empty surface list), `get` performs the
predictive search on `reading ++ TAB`, the unique (hence first) hit supplies
the payload, the payload is split on `/`, and the resulting surface list is
exactly the list inserted at build time, order preserved. -/
theorem marisaGet_present (dicts : List (List Char × List (List Char)))
    (kana : List Char) (surfaces : List (List Char))
    (hmem : (kana, surfaces) ∈ dicts)
    (hnodup : (dicts.map Prod.fst).Nodup)
    (htab : ∀ e ∈ dicts, TAB ∉ e.1)
    (hslash : ∀ s ∈ surfaces, SLASH ∉ s)
    (hsne : surfaces ≠ []) :
    marisaGet (dictBuild dicts) kana = some surfaces := by
  have hktab : TAB ∉ kana := htab (kana, surfaces) hmem
  have hkey : dictKey (kana, surfaces) = kana ++ TAB :: joinSurfaces surfaces := rfl
  rw [marisaGet, predictiveHits_single dicts kana surfaces hmem hnodup htab hktab, hkey]
  show some (splitSlash ((kana ++ TAB :: joinSurfaces surfaces).drop
      ((kana ++ TAB :: joinSurfaces surfaces).findIdx (fun c => decide (c = TAB)) + 1))) =
    some surfaces
  rw [findIdx_tab kana (joinSurfaces surfaces) hktab,
    drop_after_sep kana (joinSurfaces surfaces), splitSlash_join surfaces hsne hslash]

/-- C9 witness: lookup of the reading "a" in the two-entry dictionary `dC9`
returns its two surfaces in insertion order. -/
theorem marisaGet_present_witness :
    marisaGet (dictBuild dC9) ['a'] = some [['x'], ['y']] :=
  marisaGet_present dC9 ['a'] [['x'], ['y']] (by decide) (by decide) (by decide)
    (by decide) (by decide)

/-- C4 amended: for a reading absent from the dictionary (readings TAB-free),
`get` returns `Some` of the *empty* surface list — never `none`: the
predictive search has no hit, the callback never runs, and the still-empty
vector is returned wrapped in `Some`. -/
theorem marisaGet_absent (dicts : List (List Char × List (List Char)))
    (kana : List Char)
    (htab : ∀ e ∈ dicts, TAB ∉ e.1)
    (hktab : TAB ∉ kana)
    (habs : ∀ e ∈ dicts, e.1 ≠ kana) :
    marisaGet (dictBuild dicts) kana = some [] := by
  have hhits : predictiveHits (dictBuild dicts) (kana ++ [TAB]) = [] := by
    rw [predictiveHits]
    refine List.filter_eq_nil_iff.mpr ?_
    intro w hw
    obtain ⟨e, he, rfl⟩ := List.mem_map.mp hw
    intro hp
    have hpre : (kana ++ [TAB]) <+: dictKey e := of_decide_eq_true hp
    exact habs e he ((dictKey_prefix_iff e kana (htab e he) hktab).mp hpre)
  rw [marisaGet, hhits]

/-- C4 counterexample: the reading "z" is absent from the dictionary built
from `dC4`, yet `get` returns `some []` (an empty candidate list), not
`none` as the claim states. -/
theorem marisaGet_absent_counterexample :
    marisaGet (dictBuild dC4) ['z'] = some [] ∧
      (marisaGet (dictBuild dC4) ['z']).isSome = true := by
  exact ⟨by decide, by decide⟩

/-- C4 witness: the amended statement applied to `dC4` and the absent
reading "q". -/
theorem marisaGet_absent_witness :
    marisaGet (dictBuild dC4) ['q'] = some [] :=
  marisaGet_absent dC4 ['q'] (by decide) (by decide) (by decide)

/-! ## C5: the unigram LM builder size check -/

theorem processUnigramGo_ok :
    ∀ (lines acc : List (String × Cost)) (i : Nat),
      i + lines.length < 8388608 →
      processUnigramGo acc i lines = .ok (acc ++ lines) := by
  intro lines
  induction lines with
  | nil => intro acc i _; simp [processUnigramGo]
  | cons l rest ih =>
      intro acc i h
      have hlen : i + (l :: rest).length = i + rest.length + 1 := by
        simp [List.length_cons]
        omega
      rw [processUnigramGo, if_neg (by omega)]
      rw [ih (acc ++ [l]) (i + 1) (by rw [hlen] at h; omega)]
      simp

theorem processUnigramGo_panic :
    ∀ (lines acc : List (String × Cost)) (i : Nat),
      8388608 ≤ i + lines.length → lines ≠ [] →
      processUnigramGo acc i lines = .panic "too much words." := by
  intro lines
  induction lines with
  | nil => intro acc i _ hne; exact absurd rfl hne
  | cons l rest ih =>
      intro acc i h _
      by_cases hc : 8388608 ≤ i + 1
      · rw [processUnigramGo, if_pos hc]
      · rw [processUnigramGo, if_neg hc]
        have hlen : i + (l :: rest).length = i + 1 + rest.length := by
          simp [List.length_cons]
          omega
        refine ih (acc ++ [l]) (i + 1) (by omega) ?_
        intro hnil
        rw [hnil] at h
        simp at h
        omega

/-- C5 amended: the unigram LM builder panics ("too much words.") at build
time on any input containing 2^23 **or more** words — the counter check
`i >= 8388608` fires right after the 8388608-th word is added, so an input
with exactly 2^23 words is also rejected — and accepts any input with at
most 2^23 − 1 words, passing every parsed word to the builder in input
order. -/
theorem processUnigram_size_boundary (lines : List (String × Cost)) :
    (8388608 ≤ lines.length → processUnigram lines = .panic "too much words.") ∧
    (lines.length < 8388608 → processUnigram lines = .ok lines) := by
  constructor
  · intro h
    have hne : lines ≠ [] := by
      intro hnil
      rw [hnil] at h
      simp at h
    rw [processUnigram]
    exact processUnigramGo_panic lines [] 0 (by omega) hne
  · intro h
    rw [processUnigram]
    rw [processUnigramGo_ok lines [] 0 (by omega)]
    simp

/-- C5 counterexample: an input with exactly 2^23 = 8388608 words — which the
claim says is not rejected for size — makes `process_unigram` panic. -/
theorem processUnigram_exactly_2pow23_rejected :
    processUnigram (List.replicate 8388608 ("a", (0 : Cost))) =
      .panic "too much words." := by
  rw [processUnigram]
  have hlen : (List.replicate 8388608 ("a", (0 : Cost))).length = 8388608 :=
    List.length_replicate _ _
  refine processUnigramGo_panic _ [] 0 (by rw [hlen]) ?_
  intro h
  have h2 := congrArg List.length h
  rw [hlen, List.length_nil] at h2
  cases h2

/-- C5 witness: the amended statement applied to a one-line input, which is
accepted. -/
theorem processUnigram_size_boundary_witness :
    processUnigram [("a", (1 : Cost))] = .ok [("a", (1 : Cost))] :=
  (processUnigram_size_boundary [("a", (1 : Cost))]).2 (by decide)

/-! ## C7: the `test_resolver` scenario -/

/-- C7: for yomi "abc" with kana trie keys {"abc","ab","c"} (insertion order
of the source test) and empty dictionaries and language models, the
spec-modelled segmenter produces exactly the map {2:["ab"], 3:["abc","c"]},
and `GraphResolver::viterbi` on the spec-modelled lattice returns the string
"abc" — the single fallback node beats ab+c, which pays one more edge and one
more node cost. -/
theorem segmenter_resolver_abc_scenario :
    (segmentAll trieABC abcChars).map (fun e => (e.1, e.2.map String.mk)) =
      [(2, ["ab"]), (3, ["abc", "c"])] ∧
    viterbi (buildLatticeEmpty abcChars (segmentAll trieABC abcChars)) = .ok "abc" := by
  exact ⟨by decide, by decide⟩

end Akaza
